import Mathlib

/-!
Shallow embedding of the file Stock-portfolio-tracker.py (class
StockPortfolio) of this repository.

Prices and derived monetary amounts are modelled as rationals, share counts
as integers, symbols and time-series timestamps as strings. The portfolio
file is modelled as an abstract file state, and the HTTP price fetches as an
oracle giving, for each loop iteration (index) and symbol, either a parsed
price or the missing-value signal `none` (the Python code returns `None`).
-/

/-- One portfolio line item, mirroring the dict built in add_stock with keys
symbol, shares, purchase_price, current_price, total_value, gain_loss. -/
structure Holding where
  symbol : String
  shares : ℤ
  purchase_price : ℚ
  current_price : ℚ
  total_value : ℚ
  gain_loss : ℚ
deriving DecidableEq, Repr

/-- The state of the portfolio file on disk: absent, present but not valid
JSON, or a well-formed JSON array of holdings. -/
inductive FileState where
  | absent : FileState
  | malformed : FileState
  | wellFormed : List Holding → FileState
deriving DecidableEq, Repr

/-- Python str.upper(), character by character (symbols are ASCII tickers).
Written over the character list so that concrete instances evaluate in the
kernel; it agrees with String.toUpper. -/
def pyUpper (s : String) : String :=
  ⟨s.data.map Char.toUpper⟩

namespace StockPortfolio

/-- Embeds load_portfolio: returns the parsed list when the file exists and
is well-formed, the empty list when the file does not exist, and propagates
the json.load exception (modelled as Except.error) when the file exists but
is malformed — the source wraps the read in no try/except. -/
def load_portfolio : FileState → Except String (List Holding)
  | FileState.absent => Except.ok []
  | FileState.malformed => Except.error "json.decoder.JSONDecodeError"
  | FileState.wellFormed l => Except.ok l

/-- Embeds save_portfolio: rewrites the file wholesale with the in-memory
list. -/
def save_portfolio (portfolio : List Holding) : FileState :=
  FileState.wellFormed portfolio

/-- The dict literal built by add_stock: symbol uppercased, derived fields
current_price, total_value and gain_loss all initialised to 0.0. -/
def mkStockData (symbol : String) (shares : ℤ) (purchase_price : ℚ) : Holding :=
  { symbol := pyUpper symbol
    shares := shares
    purchase_price := purchase_price
    current_price := 0
    total_value := 0
    gain_loss := 0 }

/-- Embeds add_stock: appends the new holding to the in-memory list; the
subsequent save_portfolio call is applied separately where a claim involves
the file. -/
def add_stock (symbol : String) (shares : ℤ) (purchase_price : ℚ)
    (portfolio : List Holding) : List Holding :=
  portfolio ++ [mkStockData symbol shares purchase_price]

/-- Embeds remove_stock: the list comprehension keeping exactly the stocks
whose stored symbol differs from symbol.upper(). -/
def remove_stock (symbol : String) : List Holding → List Holding
  | [] => []
  | stock :: rest =>
      if stock.symbol ≠ pyUpper symbol then
        stock :: remove_stock symbol rest
      else
        remove_stock symbol rest

/-- Loop body of update_current_prices for one stock: the guard
`if current_price:` is Python truthiness, so both `None` and a fetched price
of exactly 0.0 leave the holding untouched; a nonzero fetched price updates
current_price, total_value and gain_loss in place. -/
def updateStockEntry (fetched : Option ℚ) (stock : Holding) : Holding :=
  match fetched with
  | none => stock
  | some current_price =>
      if current_price = 0 then stock
      else
        { stock with
            current_price := current_price
            total_value := stock.shares * current_price
            gain_loss := (current_price - stock.purchase_price) * stock.shares }

/-- Embeds update_current_prices: iterates over the portfolio in order,
calling fetch_current_price on each symbol; the oracle `fetch` gives the
result of the call made at iteration `i` for that symbol. -/
def update_current_prices (fetch : ℕ → String → Option ℚ) :
    ℕ → List Holding → List Holding
  | _, [] => []
  | i, stock :: rest =>
      updateStockEntry (fetch i stock.symbol) stock ::
        update_current_prices fetch (i + 1) rest

/-- Embeds calculate_total_value: the sum of the total_value fields. -/
def calculate_total_value (portfolio : List Holding) : ℚ :=
  (portfolio.map (fun stock => stock.total_value)).sum

/-- Embeds calculate_total_gain_loss: the sum of the gain_loss fields. -/
def calculate_total_gain_loss (portfolio : List Holding) : ℚ :=
  (portfolio.map (fun stock => stock.gain_loss)).sum

/-- The greatest timestamp key of an intraday time series, i.e. the element
sorted(time_series.keys())[-1] picks, under string comparison; `none` for an
empty series. An entry pairs a timestamp key with the value of its
"4. close" field parsed as a float — `none` there standing for a missing or
unparsable close field. -/
def latestTime : List (String × Option ℚ) → Option String
  | [] => none
  | entry :: rest =>
      some (match latestTime rest with
            | none => entry.1
            | some k => if entry.1 < k then k else entry.1)

/-- Embeds fetch_current_price, applied to the time series of the API
response: an empty (falsy) series yields `None`; otherwise the close at the
greatest timestamp is returned, with any exception while extracting or
parsing it (missing "4. close" field, bad float) caught and converted to
`None`. -/
def fetch_current_price (time_series : List (String × Option ℚ)) : Option ℚ :=
  match latestTime time_series with
  | none => none
  | some latest =>
      match time_series.lookup latest with
      | some (some current_price) => some current_price
      | _ => none

/-- Python dict assignment d[k] = v: overwrites the value in place when the
key is present, appends the pair otherwise. -/
def dictInsert (d : List (String × ℚ)) (k : String) (v : ℚ) :
    List (String × ℚ) :=
  if k ∈ d.map Prod.fst then
    d.map (fun e => if e.1 = k then (k, v) else e)
  else
    d ++ [(k, v)]

/-- The dict comprehension of diversification_analysis, keyed by symbol:
later holdings with an already-seen symbol overwrite that key, so duplicate
symbols collapse to a single entry. -/
def pyDict (l : List (String × ℚ)) : List (String × ℚ) :=
  l.foldl (fun d e => dictInsert d e.1 e.2) []

/-- Embeds diversification_analysis: refreshes prices, then either reports
the error condition (total portfolio value is zero, modelled as `none`) with
no per-symbol entries, or produces the symbol-keyed percentage dict. -/
def diversification_analysis (fetch : ℕ → String → Option ℚ)
    (portfolio : List Holding) : Option (List (String × ℚ)) :=
  let refreshed := update_current_prices fetch 0 portfolio
  let total_value := calculate_total_value refreshed
  if total_value = 0 then
    none
  else
    some (pyDict (refreshed.map
      (fun stock => (stock.symbol, stock.total_value / total_value * 100))))

/-- The per-holding equation total_value = shares × current_price. -/
def tvInv (stock : Holding) : Prop :=
  stock.total_value = stock.shares * stock.current_price

/-- The per-holding equation gain_loss = (current_price − purchase_price) ×
shares. -/
def glInv (stock : Holding) : Prop :=
  stock.gain_loss = (stock.current_price - stock.purchase_price) * stock.shares

/-- A fetch oracle for which every price fetch fails. -/
def fetchNone : ℕ → String → Option ℚ := fun _ _ => none

/-- A concrete holding used in witnesses and counterexamples: 10 shares of
AAPL bought at 1, currently priced 5. -/
def exHolding : Holding :=
  { symbol := "AAPL", shares := 10, purchase_price := 1,
    current_price := 5, total_value := 50, gain_loss := 40 }

/-- A concrete portfolio holding the same symbol twice, each line worth 50. -/
def exDupPortfolio : List Holding :=
  [exHolding, exHolding]

/-- A concrete two-entry intraday time series. -/
def exSeries : List (String × Option ℚ) :=
  [("2024-01-02 09:30:00", some 101), ("2024-01-02 09:31:00", some 102)]

/-- The refresh loop body never changes the symbol of a holding. -/
theorem updateStockEntry_symbol (r : Option ℚ) (s : Holding) :
    (updateStockEntry r s).symbol = s.symbol := by
  cases r with
  | none => rfl
  | some v =>
      by_cases hv : v = 0 <;> simp [updateStockEntry, hv]

/-- The refresh loop body preserves the total_value equation. -/
theorem updateStockEntry_tvInv (r : Option ℚ) (s : Holding) (h : tvInv s) :
    tvInv (updateStockEntry r s) := by
  cases r with
  | none => exact h
  | some v =>
      by_cases hv : v = 0
      · simpa [updateStockEntry, hv] using h
      · simp [updateStockEntry, hv, tvInv]

/-- The refresh loop body preserves the gain_loss equation. -/
theorem updateStockEntry_glInv (r : Option ℚ) (s : Holding) (h : glInv s) :
    glInv (updateStockEntry r s) := by
  cases r with
  | none => exact h
  | some v =>
      by_cases hv : v = 0
      · simpa [updateStockEntry, hv] using h
      · simp [updateStockEntry, hv, glInv]

/-- A refresh preserves the total_value equation across the portfolio. -/
theorem update_current_prices_tvInv (f : ℕ → String → Option ℚ) :
    ∀ (i : ℕ) (p : List Holding), (∀ s ∈ p, tvInv s) →
      ∀ s ∈ update_current_prices f i p, tvInv s := by
  intro i p
  induction p generalizing i with
  | nil =>
      intro _ s hs
      simp [update_current_prices] at hs
  | cons a t ih =>
      intro h s hs
      rw [update_current_prices] at hs
      rcases List.mem_cons.mp hs with rfl | hs
      · exact updateStockEntry_tvInv _ _ (h a (List.mem_cons_self a t))
      · exact ih (i + 1) (fun x hx => h x (List.mem_cons_of_mem a hx)) s hs

/-- A refresh preserves the gain_loss equation across the portfolio. -/
theorem update_current_prices_glInv (f : ℕ → String → Option ℚ) :
    ∀ (i : ℕ) (p : List Holding), (∀ s ∈ p, glInv s) →
      ∀ s ∈ update_current_prices f i p, glInv s := by
  intro i p
  induction p generalizing i with
  | nil =>
      intro _ s hs
      simp [update_current_prices] at hs
  | cons a t ih =>
      intro h s hs
      rw [update_current_prices] at hs
      rcases List.mem_cons.mp hs with rfl | hs
      · exact updateStockEntry_glInv _ _ (h a (List.mem_cons_self a t))
      · exact ih (i + 1) (fun x hx => h x (List.mem_cons_of_mem a hx)) s hs

/-- On a portfolio satisfying the total_value equation, the total portfolio
value is the sum of shares × current_price. -/
theorem calculate_total_value_of_tvInv (p : List Holding)
    (h : ∀ s ∈ p, tvInv s) :
    calculate_total_value p =
      (p.map (fun s => (s.shares : ℚ) * s.current_price)).sum := by
  induction p with
  | nil => rfl
  | cons a t ih =>
      have ha : a.total_value = (a.shares : ℚ) * a.current_price :=
        h a (List.mem_cons_self a t)
      have ht := ih (fun x hx => h x (List.mem_cons_of_mem a hx))
      simp only [calculate_total_value, List.map_cons, List.sum_cons] at *
      rw [ha, ht]

/-- C1: after update_current_prices runs (with any sequence of per-symbol
fetch results), calculate_total_value returns exactly the sum over all
holdings of shares × current_price, provided every holding satisfied
total_value = shares × current_price before the refresh. -/
theorem C1_total_value_after_refresh (fetch : ℕ → String → Option ℚ)
    (p : List Holding) (h : ∀ s ∈ p, tvInv s) :
    calculate_total_value (update_current_prices fetch 0 p) =
      ((update_current_prices fetch 0 p).map
        (fun s => (s.shares : ℚ) * s.current_price)).sum :=
  calculate_total_value_of_tvInv _ (update_current_prices_tvInv fetch 0 p h)

/-- Witness for C1 at a concrete one-stock portfolio with all fetches
failing. -/
theorem C1_witness :
    (∀ s ∈ [exHolding], tvInv s) ∧
      calculate_total_value (update_current_prices fetchNone 0 [exHolding]) =
        ((update_current_prices fetchNone 0 [exHolding]).map
          (fun s => (s.shares : ℚ) * s.current_price)).sum := by
  constructor
  · intro s hs
    rw [List.mem_singleton] at hs
    subst hs
    show (50 : ℚ) = ((10 : ℤ) : ℚ) * 5
    norm_num
  · exact C1_total_value_after_refresh fetchNone [exHolding] (by
      intro s hs
      rw [List.mem_singleton] at hs
      subst hs
      show (50 : ℚ) = ((10 : ℤ) : ℚ) * 5
      norm_num)

/-- Every holding surviving remove_stock was in the original portfolio. -/
theorem remove_stock_subset (symbol : String) :
    ∀ (p : List Holding), ∀ s ∈ remove_stock symbol p, s ∈ p := by
  intro p
  induction p with
  | nil =>
      intro s hs
      simp [remove_stock] at hs
  | cons a t ih =>
      intro s hs
      rw [remove_stock] at hs
      by_cases ha : a.symbol ≠ pyUpper symbol
      · rw [if_pos ha] at hs
        rcases List.mem_cons.mp hs with rfl | hs
        · exact List.mem_cons_self _ _
        · exact List.mem_cons_of_mem a (ih s hs)
      · rw [if_neg ha] at hs
        exact List.mem_cons_of_mem a (ih s hs)

/-- Counterexample to C2 as stated: the holding created by
add_stock("AAPL", 10, 150) has gain_loss 0, while the equation
gain_loss = (current_price − purchase_price) × shares would require
(0 − 150) × 10 = −1500. -/
theorem C2_counterexample :
    add_stock "AAPL" 10 150 [] = [mkStockData "AAPL" 10 150] ∧
    (mkStockData "AAPL" 10 150).gain_loss = 0 ∧
    ((mkStockData "AAPL" 10 150).current_price -
        (mkStockData "AAPL" 10 150).purchase_price) *
      ((mkStockData "AAPL" 10 150).shares : ℚ) = -1500 ∧
    ¬ glInv (mkStockData "AAPL" 10 150) := by
  refine ⟨rfl, rfl, by norm_num [mkStockData], ?_⟩
  intro h
  rw [glInv] at h
  norm_num [mkStockData] at h

/-- C2 amended: the total_value equation holds for every holding created by
add_stock and both equations are preserved by update_current_prices and
remove_stock on portfolios where they hold (add_stock also keeps every
pre-existing holding); but the gain_loss equation holds for a freshly added
holding exactly when purchase_price × shares = 0 — the field is initialised
to 0, not to (0 − purchase_price) × shares. -/
theorem C2_amended_invariants (fetch : ℕ → String → Option ℚ) (i : ℕ)
    (symbol : String) (shares : ℤ) (purchase_price : ℚ)
    (p : List Holding) (h : ∀ s ∈ p, tvInv s ∧ glInv s) :
    (∀ s ∈ update_current_prices fetch i p, tvInv s ∧ glInv s) ∧
    (∀ s ∈ remove_stock symbol p, tvInv s ∧ glInv s) ∧
    (∀ s ∈ add_stock symbol shares purchase_price p, tvInv s) ∧
    (∀ s ∈ p, s ∈ add_stock symbol shares purchase_price p) ∧
    (glInv (mkStockData symbol shares purchase_price) ↔
      purchase_price * (shares : ℚ) = 0) := by
  refine ⟨?_, ?_, ?_, ?_, ?_⟩
  · intro s hs
    exact ⟨update_current_prices_tvInv fetch i p (fun x hx => (h x hx).1) s hs,
           update_current_prices_glInv fetch i p (fun x hx => (h x hx).2) s hs⟩
  · intro s hs
    exact h s (remove_stock_subset symbol p s hs)
  · intro s hs
    rw [add_stock, List.mem_append] at hs
    rcases hs with hs | hs
    · exact (h s hs).1
    · rw [List.mem_singleton] at hs
      subst hs
      show (0 : ℚ) = (shares : ℚ) * 0
      ring
  · intro s hs
    rw [add_stock, List.mem_append]
    exact Or.inl hs
  · rw [glInv]
    show (0 : ℚ) = (0 - purchase_price) * (shares : ℚ) ↔
      purchase_price * (shares : ℚ) = 0
    constructor
    · intro h1
      nlinarith [h1]
    · intro h1
      nlinarith [h1]

/-- Witness for C2 amended at a concrete portfolio satisfying both
equations. -/
theorem C2_witness :
    (∀ s ∈ [exHolding], tvInv s ∧ glInv s) ∧
    (∀ s ∈ update_current_prices fetchNone 0 [exHolding], tvInv s ∧ glInv s) ∧
    (∀ s ∈ add_stock "MSFT" 3 2 [exHolding], tvInv s) := by
  have hH : ∀ s ∈ [exHolding], tvInv s ∧ glInv s := by
    intro s hs
    rw [List.mem_singleton] at hs
    subst hs
    constructor
    · show (50 : ℚ) = ((10 : ℤ) : ℚ) * 5
      norm_num
    · show (40 : ℚ) = ((5 : ℚ) - 1) * ((10 : ℤ) : ℚ)
      norm_num
  exact ⟨hH,
    (C2_amended_invariants fetchNone 0 "MSFT" 3 2 [exHolding] hH).1,
    (C2_amended_invariants fetchNone 0 "MSFT" 3 2 [exHolding] hH).2.2.1⟩

/-- The refresh treats the portfolio elementwise: the holding at position j
after update_current_prices is the loop body applied to the fetch result of
iteration i + j and the original holding at position j. -/
theorem update_current_prices_getElem? (f : ℕ → String → Option ℚ) :
    ∀ (i j : ℕ) (p : List Holding),
      (update_current_prices f i p)[j]? =
        (p[j]?).map (fun s => updateStockEntry (f (i + j) s.symbol) s) := by
  intro i j p
  induction p generalizing i j with
  | nil => simp [update_current_prices]
  | cons a t ih =>
      cases j with
      | zero => simp [update_current_prices]
      | succ j =>
          rw [update_current_prices]
          simp only [List.getElem?_cons_succ]
          rw [ih (i + 1) j]
          have harith : i + 1 + j = i + (j + 1) := by omega
          rw [harith]

/-- Counterexample to C3 as stated: a price fetch that succeeds with the
value 0.0 does not update the holding — after the refresh the current_price
is still 5, not the fetched 0. -/
theorem C3_counterexample :
    update_current_prices (fun _ _ => some 0) 0 [exHolding] = [exHolding] ∧
    exHolding.current_price = 5 ∧ (5 : ℚ) ≠ 0 := by
  refine ⟨?_, rfl, by norm_num⟩
  show [updateStockEntry (some 0) exHolding] = [exHolding]
  simp [updateStockEntry]

/-- C3 amended: a failed fetch (missing-value signal) leaves the holding at
position j exactly as it was, and so does a successful fetch of exactly 0;
a successful fetch of a nonzero price updates current_price, total_value and
gain_loss from the fetched price (all other fields unchanged). -/
theorem C3_refresh_per_holding (fetch : ℕ → String → Option ℚ)
    (p : List Holding) (j : ℕ) (s : Holding) (hs : p[j]? = some s) :
    (update_current_prices fetch 0 p)[j]? =
      some (updateStockEntry (fetch j s.symbol) s) ∧
    (fetch j s.symbol = none → updateStockEntry (fetch j s.symbol) s = s) ∧
    (fetch j s.symbol = some 0 → updateStockEntry (fetch j s.symbol) s = s) ∧
    (∀ v, fetch j s.symbol = some v → v ≠ 0 →
      updateStockEntry (fetch j s.symbol) s =
        { s with current_price := v,
                 total_value := s.shares * v,
                 gain_loss := (v - s.purchase_price) * s.shares }) := by
  refine ⟨?_, ?_, ?_, ?_⟩
  · rw [update_current_prices_getElem? fetch 0 j p, hs]
    simp
  · intro hf
    rw [hf]
    rfl
  · intro hf
    rw [hf]
    simp [updateStockEntry]
  · intro v hf hv
    rw [hf]
    simp [updateStockEntry, hv]

/-- Witness for C3 amended at a one-stock portfolio whose fetch succeeds
with the nonzero price 7. -/
theorem C3_witness :
    ([exHolding][0]? = some exHolding) ∧
    (update_current_prices (fun _ _ => some 7) 0 [exHolding])[0]? =
      some (updateStockEntry ((fun _ _ => some (7 : ℚ)) 0 exHolding.symbol)
        exHolding) :=
  ⟨rfl, (C3_refresh_per_holding (fun _ _ => some 7) [exHolding] 0 exHolding
    rfl).1⟩

/-- Dict assignment with a fresh key appends the pair. -/
theorem dictInsert_of_not_mem (d : List (String × ℚ)) (k : String) (v : ℚ)
    (h : k ∉ d.map Prod.fst) : dictInsert d k v = d ++ [(k, v)] := by
  rw [dictInsert, if_neg h]

/-- Building a Python dict from pairs with pairwise-distinct keys keeps the
pair list as it is. -/
theorem pyDict_foldl_of_nodup (l : List (String × ℚ)) :
    ∀ (acc : List (String × ℚ)), (((acc ++ l).map Prod.fst)).Nodup →
      l.foldl (fun d e => dictInsert d e.1 e.2) acc = acc ++ l := by
  induction l with
  | nil =>
      intro acc _
      simp
  | cons e t ih =>
      intro acc h
      have h2 : ((acc.map Prod.fst) ++ (e.1 :: t.map Prod.fst)).Nodup := by
        simpa [List.map_append] using h
      have hdisj := (List.nodup_append.mp h2).2.2
      have hk : e.1 ∉ acc.map Prod.fst := by
        intro hmem
        exact hdisj hmem (List.mem_cons_self _ _)
      rw [List.foldl_cons, dictInsert_of_not_mem acc e.1 e.2 hk]
      have h3 : (((acc ++ [(e.1, e.2)]) ++ t).map Prod.fst).Nodup := by
        have : (acc ++ [(e.1, e.2)]) ++ t = acc ++ (e.1, e.2) :: t := by
          simp
        rw [this]
        simpa using h
      have := ih (acc ++ [(e.1, e.2)]) h3
      rw [this]
      simp

/-- A Python dict built from pairs with pairwise-distinct keys is just the
pair list. -/
theorem pyDict_eq_self (l : List (String × ℚ))
    (h : (l.map Prod.fst).Nodup) : pyDict l = l := by
  have := pyDict_foldl_of_nodup l [] (by simpa using h)
  simpa [pyDict] using this

/-- A refresh never changes the sequence of symbols. -/
theorem update_current_prices_symbols (f : ℕ → String → Option ℚ) :
    ∀ (i : ℕ) (p : List Holding),
      (update_current_prices f i p).map (fun s => s.symbol) =
        p.map (fun s => s.symbol) := by
  intro i p
  induction p generalizing i with
  | nil => rfl
  | cons a t ih =>
      rw [update_current_prices]
      simp only [List.map_cons]
      rw [updateStockEntry_symbol, ih (i + 1)]

/-- Summing the percentage entries scales the summed values. -/
theorem percentages_sum (t : ℚ) :
    ∀ (l : List Holding),
      ((l.map (fun s => (s.symbol, s.total_value / t * 100))).map
        Prod.snd).sum = (l.map (fun s => s.total_value)).sum / t * 100 := by
  intro l
  induction l with
  | nil => simp
  | cons a l ih =>
      simp only [List.map_cons, List.sum_cons, ih]
      rw [add_div, add_mul]

/-- Counterexample to C4 as stated: a portfolio holding the same symbol on
two lines, each worth 50, has total value 100 > 0, yet the symbol-keyed dict
collapses both lines into one entry and the produced percentages sum to 50,
not 100. -/
theorem C4_counterexample :
    calculate_total_value exDupPortfolio = 100 ∧ (0 : ℚ) < 100 ∧
    diversification_analysis fetchNone exDupPortfolio =
      some [("AAPL", 50)] ∧
    (([("AAPL", (50 : ℚ))]).map Prod.snd).sum = 50 ∧ (50 : ℚ) ≠ 100 := by
  have htot : calculate_total_value exDupPortfolio = 100 := by
    norm_num [calculate_total_value, exDupPortfolio, exHolding]
  have hup : update_current_prices fetchNone 0 exDupPortfolio =
      exDupPortfolio := rfl
  refine ⟨htot, by norm_num, ?_, by norm_num, by norm_num⟩
  rw [diversification_analysis]
  simp only [hup, htot]
  rw [if_neg (by norm_num)]
  have hpct : (50 : ℚ) / 100 * 100 = 50 := by norm_num
  have hmap : exDupPortfolio.map
      (fun stock => (stock.symbol, stock.total_value / 100 * 100)) =
      [("AAPL", 50), ("AAPL", 50)] := by
    simp [exDupPortfolio, exHolding, hpct]
  rw [hmap]
  rw [pyDict]
  simp [dictInsert]

/-- C4 amended: for a portfolio whose holdings carry pairwise-distinct
symbols, when the refreshed total value is strictly positive the produced
percentages sum to exactly 100, and when it is zero the analysis reports
the error condition and produces no per-symbol entries. With duplicate
symbols the dict collapses lines and the sum can fall short. -/
theorem C4_diversification (fetch : ℕ → String → Option ℚ)
    (p : List Holding) (hnodup : (p.map (fun s => s.symbol)).Nodup) :
    (0 < calculate_total_value (update_current_prices fetch 0 p) →
      ∃ out, diversification_analysis fetch p = some out ∧
        (out.map Prod.snd).sum = 100) ∧
    (calculate_total_value (update_current_prices fetch 0 p) = 0 →
      diversification_analysis fetch p = none) := by
  constructor
  · intro hpos
    have hne : calculate_total_value (update_current_prices fetch 0 p) ≠ 0 :=
      ne_of_gt hpos
    refine ⟨pyDict ((update_current_prices fetch 0 p).map
      (fun stock => (stock.symbol,
        stock.total_value /
          calculate_total_value (update_current_prices fetch 0 p) * 100))),
      ?_, ?_⟩
    · show (if calculate_total_value (update_current_prices fetch 0 p) = 0
            then none
            else some (pyDict ((update_current_prices fetch 0 p).map
              (fun stock => (stock.symbol, stock.total_value /
                calculate_total_value (update_current_prices fetch 0 p) *
                  100))))) =
          some (pyDict ((update_current_prices fetch 0 p).map
            (fun stock => (stock.symbol, stock.total_value /
              calculate_total_value (update_current_prices fetch 0 p) *
                100))))
      rw [if_neg hne]
    · have hkeys : (((update_current_prices fetch 0 p).map
          (fun stock => (stock.symbol,
            stock.total_value /
              calculate_total_value (update_current_prices fetch 0 p) *
                100))).map Prod.fst).Nodup := by
        rw [List.map_map]
        have : (Prod.fst ∘ fun stock : Holding => (stock.symbol,
            stock.total_value /
              calculate_total_value (update_current_prices fetch 0 p) *
                100)) = fun s : Holding => s.symbol := rfl
        rw [this, update_current_prices_symbols]
        exact hnodup
      rw [pyDict_eq_self _ hkeys]
      rw [percentages_sum]
      rw [calculate_total_value] at hne ⊢
      rw [div_self hne]
      norm_num
  · intro hzero
    show (if calculate_total_value (update_current_prices fetch 0 p) = 0
          then none
          else some (pyDict ((update_current_prices fetch 0 p).map
            (fun stock => (stock.symbol, stock.total_value /
              calculate_total_value (update_current_prices fetch 0 p) *
                100))))) = none
    rw [if_pos hzero]

/-- Witness for C4 amended at a concrete one-stock portfolio with positive
total value. -/
theorem C4_witness :
    (([exHolding].map (fun s => s.symbol)).Nodup) ∧
    (∃ out, diversification_analysis fetchNone [exHolding] = some out ∧
      (out.map Prod.snd).sum = 100) := by
  have hnodup : ([exHolding].map (fun s => s.symbol)).Nodup := by
    simp
  refine ⟨hnodup, (C4_diversification fetchNone [exHolding] hnodup).1 ?_⟩
  have hup : update_current_prices fetchNone 0 [exHolding] = [exHolding] :=
    rfl
  rw [hup]
  norm_num [calculate_total_value, exHolding]

/-- Counterexample to C5 as stated: adding with the lowercase input "aapl"
and reloading yields a holding whose stored symbol is "AAPL", not the string
passed to add_stock. -/
theorem C5_counterexample :
    load_portfolio (save_portfolio (add_stock "aapl" 10 150 [])) =
      Except.ok [mkStockData "aapl" 10 150] ∧
    (mkStockData "aapl" 10 150).symbol = "AAPL" ∧
    ("AAPL" : String) ≠ "aapl" := by
  refine ⟨rfl, ?_, by decide⟩
  show pyUpper "aapl" = "AAPL"
  decide

/-- C5 amended: adding a stock and reloading the store yields, appended to
the prior list, a holding whose symbol is the UPPERCASED input symbol and
whose shares and purchase_price are identical to those passed to add_stock,
with current_price, total_value and gain_loss all zero. -/
theorem C5_add_then_load (symbol : String) (shares : ℤ)
    (purchase_price : ℚ) (p : List Holding) :
    load_portfolio (save_portfolio (add_stock symbol shares purchase_price
        p)) =
      Except.ok (p ++ [mkStockData symbol shares purchase_price]) ∧
    (mkStockData symbol shares purchase_price).symbol = pyUpper symbol ∧
    (mkStockData symbol shares purchase_price).shares = shares ∧
    (mkStockData symbol shares purchase_price).purchase_price =
      purchase_price ∧
    (mkStockData symbol shares purchase_price).current_price = 0 ∧
    (mkStockData symbol shares purchase_price).total_value = 0 ∧
    (mkStockData symbol shares purchase_price).gain_loss = 0 :=
  ⟨rfl, rfl, rfl, rfl, rfl, rfl, rfl⟩

/-- C6: remove_stock removes exactly the holdings whose stored symbol equals
the uppercased input and keeps the remaining holdings in their original
order (the result is the order-preserving filter, a sublist of the
original). -/
theorem C6_remove_filters (symbol : String) (p : List Holding) :
    remove_stock symbol p =
      p.filter (fun s => s.symbol ≠ pyUpper symbol) ∧
    (remove_stock symbol p).Sublist p := by
  have hfilter : remove_stock symbol p =
      p.filter (fun s => s.symbol ≠ pyUpper symbol) := by
    induction p with
    | nil => rfl
    | cons a t ih =>
        rw [remove_stock]
        by_cases h : a.symbol ≠ pyUpper symbol
        · rw [if_pos h, ih, List.filter_cons_of_pos (by simpa using h)]
        · rw [if_neg h, ih, List.filter_cons_of_neg (by simpa using h)]
  exact ⟨hfilter, hfilter ▸ List.filter_sublist p⟩

/-- C7: removing a symbol whose uppercased form matches no holding leaves
the portfolio unchanged — same holdings, same order, same field values. -/
theorem C7_remove_absent (symbol : String) (p : List Holding)
    (h : ∀ s ∈ p, s.symbol ≠ pyUpper symbol) :
    remove_stock symbol p = p := by
  induction p with
  | nil => rfl
  | cons a t ih =>
      rw [remove_stock, if_pos (h a (List.mem_cons_self _ _)),
        ih (fun x hx => h x (List.mem_cons_of_mem a hx))]

/-- Witness for C7: removing MSFT from a portfolio holding only AAPL. -/
theorem C7_witness :
    (∀ s ∈ [exHolding], s.symbol ≠ pyUpper "msft") ∧
    remove_stock "msft" [exHolding] = [exHolding] := by
  have h : ∀ s ∈ [exHolding], s.symbol ≠ pyUpper "msft" := by
    intro s hs
    rw [List.mem_singleton] at hs
    subst hs
    show ("AAPL" : String) ≠ pyUpper "msft"
    decide
  exact ⟨h, C7_remove_absent "msft" [exHolding] h⟩

/-- The greatest timestamp is a key of the series. -/
theorem latestTime_mem :
    ∀ (ts : List (String × Option ℚ)) (r : String),
      latestTime ts = some r → r ∈ ts.map Prod.fst := by
  intro ts
  induction ts with
  | nil =>
      intro r h
      simp [latestTime] at h
  | cons e t ih =>
      intro r h
      rw [latestTime] at h
      cases hlt : latestTime t with
      | none =>
          rw [hlt] at h
          have he : e.1 = r := by simpa using h
          simp only [List.map_cons, List.mem_cons]
          exact Or.inl he.symm
      | some k =>
          rw [hlt] at h
          have h2 : (if e.1 < k then k else e.1) = r := by simpa using h
          by_cases hc : e.1 < k
          · rw [if_pos hc] at h2
            simp only [List.map_cons, List.mem_cons]
            exact Or.inr (h2 ▸ ih k hlt)
          · rw [if_neg hc] at h2
            simp only [List.map_cons, List.mem_cons]
            exact Or.inl h2.symm

/-- The greatest timestamp dominates every key of the series. -/
theorem latestTime_ge :
    ∀ (ts : List (String × Option ℚ)) (r : String),
      latestTime ts = some r → ∀ k ∈ ts.map Prod.fst, k ≤ r := by
  intro ts
  induction ts with
  | nil =>
      intro r h
      simp [latestTime] at h
  | cons e t ih =>
      intro r h k hk
      rw [latestTime] at h
      simp only [List.map_cons, List.mem_cons] at hk
      cases hlt : latestTime t with
      | none =>
          rw [hlt] at h
          have he : e.1 = r := by simpa using h
          have ht : t = [] := by
            cases t with
            | nil => rfl
            | cons x xs =>
                rw [latestTime] at hlt
                simp at hlt
          subst ht
          rcases hk with rfl | hk
          · exact le_of_eq he
          · simp at hk
      | some m =>
          rw [hlt] at h
          have h2 : (if e.1 < m then m else e.1) = r := by simpa using h
          rcases hk with rfl | hk
          · by_cases hc : e.1 < m
            · rw [if_pos hc] at h2
              exact le_of_lt (h2 ▸ hc)
            · rw [if_neg hc] at h2
              exact le_of_eq h2
          · have hkm : k ≤ m := ih m hlt k hk
            by_cases hc : e.1 < m
            · rw [if_pos hc] at h2
              exact h2 ▸ hkm
            · rw [if_neg hc] at h2
              exact le_trans hkm (h2 ▸ le_of_not_lt hc)

/-- A key with a lookup result is a key of the series. -/
theorem lookup_mem_keys :
    ∀ (ts : List (String × Option ℚ)) (k : String) (c : Option ℚ),
      ts.lookup k = some c → k ∈ ts.map Prod.fst := by
  intro ts
  induction ts with
  | nil =>
      intro k c h
      simp [List.lookup] at h
  | cons e t ih =>
      intro k c h
      obtain ⟨e1, e2⟩ := e
      rw [List.lookup] at h
      cases hbe : (k == e1) with
      | true =>
          have : k = e1 := by
            exact eq_of_beq hbe
          simp only [List.map_cons, List.mem_cons]
          exact Or.inl this
      | false =>
          rw [hbe] at h
          simp only [List.map_cons, List.mem_cons]
          exact Or.inr (ih k c h)

/-- C8: on a non-empty intraday time series, fetch_current_price returns
exactly what the response records at the greatest timestamp — the parsed
closing price when present, the missing-value signal when that field is
missing or unparsable — and on an empty series it returns the missing-value
signal; no case raises. -/
theorem C8_fetch_latest_close (ts : List (String × Option ℚ)) (k : String)
    (c : Option ℚ) (hlookup : ts.lookup k = some c)
    (hmax : ∀ x ∈ ts.map Prod.fst, x ≤ k) :
    fetch_current_price [] = none ∧
    fetch_current_price ts = c := by
  refine ⟨rfl, ?_⟩
  have hkmem : k ∈ ts.map Prod.fst := lookup_mem_keys ts k c hlookup
  have hts : ts ≠ [] := by
    rintro rfl
    simp at hkmem
  obtain ⟨r, hr⟩ : ∃ r, latestTime ts = some r := by
    cases ts with
    | nil => exact absurd rfl hts
    | cons e t => exact ⟨_, rfl⟩
  have hrk : r = k :=
    le_antisymm (hmax r (latestTime_mem ts r hr))
      (latestTime_ge ts r hr k hkmem)
  rw [fetch_current_price, hr, hrk]
  show (match List.lookup k ts with
        | some (some current_price) => some current_price
        | _ => none) = c
  rw [hlookup]
  cases c with
  | none => rfl
  | some v => rfl

/-- Witness for C8 at a concrete two-entry series whose latest close is
102. -/
theorem C8_witness :
    (exSeries.lookup "2024-01-02 09:31:00" = some (some 102)) ∧
    fetch_current_price exSeries = some 102 := by
  have hlookup : exSeries.lookup "2024-01-02 09:31:00" = some (some 102) :=
    by decide
  have hmax : ∀ x ∈ exSeries.map Prod.fst, x ≤ "2024-01-02 09:31:00" := by
    intro x hx
    simp only [exSeries, List.map_cons, List.map_nil, List.mem_cons,
      List.not_mem_nil, or_false] at hx
    rcases hx with rfl | rfl
    · rw [String.le_iff_toList_le]
      decide
    · exact le_rfl
  exact ⟨hlookup,
    (C8_fetch_latest_close exSeries "2024-01-02 09:31:00" (some 102) hlookup
      hmax).2⟩

/-- C9: load_portfolio yields the empty list when the portfolio file does
not exist, and when the file exists but is malformed the error propagates
(as an uncaught fatal error) rather than being swallowed. -/
theorem C9_load_missing_or_malformed :
    load_portfolio FileState.absent = Except.ok [] ∧
    load_portfolio FileState.malformed =
      Except.error "json.decoder.JSONDecodeError" :=
  ⟨rfl, rfl⟩

/-- C10: a price fetch that succeeds with exactly 0.0 is treated the same as
a failed fetch — the loop body leaves the holding at its prior values, and a
refresh in which every fetch returns 0.0 leaves the whole portfolio
unchanged. -/
theorem C10_zero_price_treated_as_failure :
    ∀ (s : Holding) (i : ℕ) (p : List Holding),
      updateStockEntry (some 0) s = s ∧
      updateStockEntry (some 0) s = updateStockEntry none s ∧
      update_current_prices (fun _ _ => some 0) i p = p := by
  have hentry : ∀ s : Holding, updateStockEntry (some 0) s = s := by
    intro s
    simp [updateStockEntry]
  intro s i p
  refine ⟨hentry s, (hentry s).trans rfl, ?_⟩
  induction p generalizing i with
  | nil => rfl
  | cons a t ih =>
      rw [update_current_prices]
      show updateStockEntry (some 0) a ::
        update_current_prices (fun _ _ => some 0) (i + 1) t = a :: t
      rw [hentry a, ih (i + 1)]

end StockPortfolio
